import Mathlib

/-!
Verification of `utils.py` from the HexaLayout repository: the grouped
random batch sampler (`RandomBatchSampler`), the bounding-box rasterizer
(`bounding_box_to_matrix_image`), the multi-class grid IoU metric
(`compute_bbox_matrix_iou`), the binary threat-score helper
(`get_ts_for_batch_binary`) and the evaluation loop (`evaluation`).

Grids are embedded as flat lists of integer cell labels (numpy `.sum()`
and element-wise comparisons only depend on the flat cell sequence, and
the two grids are compared cell-by-cell, which the `List.zip` of the two
flattened grids captures).  Real-valued quantities (IoU ratios, threat
scores) are embedded as rationals.
-/

namespace HexaLayout

/-! ## Multi-class grid IoU metric: `compute_bbox_matrix_iou`

Source (`src/utils.py`, lines 174-198):

```
for c in range(n_classes):
    labels_c = (labels != c)
    pred_c = (predictions != c)
    labels_c_sum = (labels_c).sum()
    pred_c_sum = (pred_c).sum()
    if (labels_c_sum > 0) or (pred_c_sum > 0):
        seen_classes += 1
        intersect = np.logical_and(labels_c, pred_c).sum()
        union = labels_c_sum + pred_c_sum - intersect
        mean_iou += intersect / union
mean_iou = mean_iou / seen_classes if seen_classes else 0
```
-/
/-- `(g != c).sum()`: number of cells of the flattened grid `g` that differ
from the class label `c`. -/
def countNe (g : List ℤ) (c : ℤ) : ℕ :=
  (g.filter (fun x => x ≠ c)).length

/-- `np.logical_and(labels != c, predictions != c).sum()`: number of cell
positions at which both grids differ from `c` (element-wise over the two
same-shape grids, embedded by zipping the flattened cell sequences). -/
def countBothNe (labels predictions : List ℤ) (c : ℤ) : ℕ :=
  ((labels.zip predictions).filter (fun p => p.1 ≠ c ∧ p.2 ≠ c)).length

/-- One iteration of the `for c in range(n_classes)` loop of
`compute_bbox_matrix_iou`.  The accumulator carries the running
`mean_iou` sum and the `seen_classes` counter. -/
def iouStep (labels predictions : List ℤ) (acc : ℚ × ℕ) (c : ℤ) : ℚ × ℕ :=
  let labels_c_sum := countNe labels c
  let pred_c_sum := countNe predictions c
  if 0 < labels_c_sum ∨ 0 < pred_c_sum then
    let intersect := countBothNe labels predictions c
    let union : ℤ := (labels_c_sum : ℤ) + (pred_c_sum : ℤ) - (intersect : ℤ)
    (acc.1 + (intersect : ℚ) / (union : ℚ), acc.2 + 1)
  else
    acc

/-- The classes-loop of `compute_bbox_matrix_iou`, run over
`range(n_classes)`: returns the final `(mean_iou, seen_classes)` pair. -/
def iouFold (labels predictions : List ℤ) (n_classes : ℕ) : ℚ × ℕ :=
  ((List.range n_classes).map (fun c => (c : ℤ))).foldl
    (iouStep labels predictions) (0, 0)

/-- `compute_bbox_matrix_iou(labels, predictions, n_classes=10)` from
`src/utils.py`: the mean over seen classes of the per-class
complement-mask IoU, `0` when no class is seen. -/
def compute_bbox_matrix_iou (labels predictions : List ℤ)
    (n_classes : ℕ := 10) : ℚ :=
  let r := iouFold labels predictions n_classes
  if r.2 ≠ 0 then r.1 / (r.2 : ℚ) else 0

/-! ### Reference definition for claim C1, written from the spec's words

"for each class c in [0, n_classes) the presence mask of each grid is the
set of cells NOT equal to c; class c is counted as seen if either grid's
presence mask is non-empty; each seen class contributes
|intersection| / (|mask1| + |mask2| - |intersection|) to a running sum;
the result is that sum divided by the number of seen classes, and 0 when
no class is seen." -/
/-- The presence mask of class `c` in grid `g`, following the spec: the
set of cell positions NOT equal to `c`. -/
def presenceMask (g : List ℤ) (c : ℤ) : Finset ℕ :=
  (Finset.range g.length).filter (fun i => g.getD i 0 ≠ c)

/-- The set of seen classes, following the spec: classes `c` in
`[0, n_classes)` for which either grid's presence mask is non-empty. -/
def seenSet (labels predictions : List ℤ) (n_classes : ℕ) : Finset ℕ :=
  (Finset.range n_classes).filter
    (fun c => (presenceMask labels (c : ℤ)).Nonempty ∨
              (presenceMask predictions (c : ℤ)).Nonempty)

/-- The contribution of one seen class, following the spec:
`|intersection of the two masks| / (|mask1| + |mask2| - |intersection|)`. -/
def classContribution (labels predictions : List ℤ) (c : ℤ) : ℚ :=
  let m1 := presenceMask labels c
  let m2 := presenceMask predictions c
  let inter := m1 ∩ m2
  (inter.card : ℚ) / ((m1.card : ℚ) + (m2.card : ℚ) - (inter.card : ℚ))

/-- The reference mean-IoU of claim C1, written from the spec's words:
the sum of the seen classes' contributions divided by the number of seen
classes, and `0` (not NaN or an error) when no class is seen. -/
def referenceIoU (labels predictions : List ℤ) (n_classes : ℕ) : ℚ :=
  let seen := seenSet labels predictions n_classes
  if seen.Nonempty then
    (∑ c in seen, classContribution labels predictions (c : ℤ)) / (seen.card : ℚ)
  else 0

/-! ## Bounding-box rasterizer: `bounding_box_to_matrix_image`

Source (`src/utils.py`, lines 155-172):

```
bounding_box_map = np.full((800, 800), 9)
for idx, bb in enumerate(one_target['bounding_box']):
    label = one_target['category'][idx]
    min_y, min_x = np.floor((bb * 10 + 400).numpy().min(axis=1))
    max_y, max_x = np.ceil((bb * 10 + 400).numpy().max(axis=1))
    for i in range(int(min_x), int(max_x)):
        for j in range(int(min_y), int(max_y)):
            bounding_box_map[-i][j] = label
return bounding_box_map
```

`bb` is a `2 x k` tensor of corner coordinates: its first row holds the
coordinates unpacked into `min_y`/`max_y`, its second row those unpacked
into `min_x`/`max_x`.  The per-row `min(axis=1)` / `max(axis=1)` of numpy
requires a non-empty axis, so each coordinate row is embedded as a head
element plus the remaining entries.  The `800 x 800` matrix is embedded
as a total function on `ℤ × ℤ` cell coordinates; numpy's negative-index
wrapping `a[-i]` is embedded by `pyIdx`. -/
/-- One bounding box of `one_target['bounding_box']`: the first
coordinate row (`y`) and second coordinate row (`x`) of the `2 x k`
corner tensor, each encoded as head element plus rest. -/
structure BoundingBox where
  y0 : ℚ
  ys : List ℚ
  x0 : ℚ
  xs : List ℚ

/-- The affine world-to-grid map `bb * 10 + 400` applied to one
coordinate. -/
def affine (v : ℚ) : ℚ := v * 10 + 400

/-- numpy `min` over one (non-empty) row. -/
def rowMin (v0 : ℚ) (vs : List ℚ) : ℚ := vs.foldl min v0

/-- numpy `max` over one (non-empty) row. -/
def rowMax (v0 : ℚ) (vs : List ℚ) : ℚ := vs.foldl max v0

/-- `int(np.floor((bb * 10 + 400).min(axis=1)))` for the first (`y`)
coordinate row. -/
def min_y (b : BoundingBox) : ℤ := ⌊rowMin (affine b.y0) (b.ys.map affine)⌋

/-- `int(np.ceil((bb * 10 + 400).max(axis=1)))` for the first (`y`)
coordinate row. -/
def max_y (b : BoundingBox) : ℤ := ⌈rowMax (affine b.y0) (b.ys.map affine)⌉

/-- `int(np.floor((bb * 10 + 400).min(axis=1)))` for the second (`x`)
coordinate row. -/
def min_x (b : BoundingBox) : ℤ := ⌊rowMin (affine b.x0) (b.xs.map affine)⌋

/-- `int(np.ceil((bb * 10 + 400).max(axis=1)))` for the second (`x`)
coordinate row. -/
def max_x (b : BoundingBox) : ℤ := ⌈rowMax (affine b.x0) (b.xs.map affine)⌉

/-- Python sequence indexing with negative-index wrapping: index `k` of
an axis of length `n` addresses position `n + k` when `k < 0`. -/
def pyIdx (n k : ℤ) : ℤ := if k < 0 then n + k else k

/-- `range(a, b)` over integers. -/
def rangeZ (a b : ℤ) : List ℤ :=
  List.map (fun k : ℕ => a + (k : ℤ)) (List.range (b - a).toNat)

/-- One assignment `bounding_box_map[-i][j] = label`, on the grid
embedded as a total function. -/
def stampCell (g : ℤ → ℤ → ℤ) (label : ℤ) (i j : ℤ) : ℤ → ℤ → ℤ :=
  fun r c => if r = pyIdx 800 (-i) ∧ c = pyIdx 800 j then label else g r c

/-- The two nested stamping loops for one box:
`for i in range(int(min_x), int(max_x)): for j in range(int(min_y), int(max_y)): ...`. -/
def stampBox (g : ℤ → ℤ → ℤ) (label : ℤ) (b : BoundingBox) : ℤ → ℤ → ℤ :=
  (rangeZ (min_x b) (max_x b)).foldl
    (fun g1 i =>
      (rangeZ (min_y b) (max_y b)).foldl (fun g2 j => stampCell g2 label i j) g1)
    g

/-- `bounding_box_to_matrix_image(one_target)` from `src/utils.py`: the
`800 x 800` grid full of the background label `9`, stamped in order with
each annotated box (the equal-length `'bounding_box'` and `'category'`
fields of `one_target` are embedded zipped, pairing each box with its
label). -/
def bounding_box_to_matrix_image (one_target : List (BoundingBox × ℤ)) :
    ℤ → ℤ → ℤ :=
  one_target.foldl (fun g bl => stampBox g bl.2 bl.1) (fun _ _ => 9)

/-! ## Grouped random batch sampler: `RandomBatchSampler`

Source (`src/utils.py`, lines 28-47):

```
def __iter__(self):
    all_batches = []
    batch = []
    for idx in self.sampler:
        batch.append(idx)
        if len(batch) == self.batch_size:
            all_batches.append(batch)
            batch = []
    if len(batch) > 0 and not self.drop_last:
        all_batches.append(batch)
    rand_index = torch.randperm(len(all_batches)).tolist()
    for index in rand_index:
        yield all_batches[index]

def __len__(self):
    if self.drop_last:
        return len(self.sampler) // self.batch_size
    else:
        return (len(self.sampler) + self.batch_size - 1) // self.batch_size
```

The underlying sampler is embedded as the list of indices it yields, and
the random permutation drawn by `torch.randperm` as an arbitrary list
`rand_index` that is a permutation of `range(len(all_batches))`. -/
/-- One iteration of the batching loop of `__iter__`: append `idx` to the
current batch and flush the batch when it reaches `batch_size`. -/
def batchStep (batch_size : ℕ) (st : List (List ℕ) × List ℕ) (idx : ℕ) :
    List (List ℕ) × List ℕ :=
  let batch := st.2 ++ [idx]
  if batch.length = batch_size then (st.1 ++ [batch], []) else (st.1, batch)

/-- The `all_batches` list built by `__iter__`: fold the batching loop
over the sampler's indices, then append the final partial batch unless it
is empty or `drop_last` is set. -/
def all_batches (sampler : List ℕ) (batch_size : ℕ) (drop_last : Bool) :
    List (List ℕ) :=
  let r := sampler.foldl (batchStep batch_size) ([], [])
  if 0 < r.2.length ∧ drop_last = false then r.1 ++ [r.2] else r.1

/-- One full traversal of `__iter__`: yield `all_batches[index]` for each
`index` of the drawn permutation `rand_index`. -/
def sampler_iter (sampler : List ℕ) (batch_size : ℕ) (drop_last : Bool)
    (rand_index : List ℕ) : List (List ℕ) :=
  rand_index.map (fun i => (all_batches sampler batch_size drop_last).getD i [])

/-- `RandomBatchSampler.__len__`. -/
def RandomBatchSampler_len (N batch_size : ℕ) (drop_last : Bool) : ℕ :=
  if drop_last then N / batch_size else (N + batch_size - 1) / batch_size

/-! ## Binary threat-score helper and evaluation loop

Source (`src/utils.py`, lines 110-132):

```
predicted_road_map = (model_output > 0.5).view(-1, 800, 800)
batch_ts = []
for batch_index in range(len(road_image)):
    sample_ts = helper.compute_ts_road_map(predicted_road_map[batch_index].cpu(),
                                           road_image[batch_index])
    batch_ts.append(sample_ts)
return batch_ts, predicted_road_map
```

Dense tensors are embedded as flat (row-major) lists of rational scores;
`view(-1, 800, 800)` then makes sample `k` the slice
`[k * 800 * 800, (k + 1) * 800 * 800)` of the flat data.  The external
collaborator `helper.compute_ts_road_map` and its road-image type are
opaque parameters, with scores valued in `Option ℚ` (`none` is a NaN
score, which `np.nanmean` ignores).  `.cpu()`, `.to(device)` and
`Variable(...)` are device-placement identities. -/
/-- `model_output > 0.5` element-wise over the flat tensor data. -/
def thresholded (model_output : List ℚ) : List Bool :=
  model_output.map (fun x => decide ((1 : ℚ) / 2 < x))

/-- `predicted_road_map[k]` after `view(-1, 800, 800)`: the `k`-th
`800 x 800` slice of the flat boolean data. -/
def viewSample (flat : List Bool) (k : ℕ) : List Bool :=
  (flat.drop (k * (800 * 800))).take (800 * 800)

/-- `get_ts_for_batch_binary(model_output, road_image)` from
`src/utils.py`, parameterized by the external
`helper.compute_ts_road_map`.  The loop over
`range(len(road_image))` indexing `road_image[batch_index]` is embedded
as a fold over `road_image.enum`. -/
def get_ts_for_batch_binary {ρ σ : Type}
    (compute_ts_road_map : List Bool → ρ → σ)
    (model_output : List ℚ) (road_image : List ρ) : List σ × List Bool :=
  let predicted_road_map := thresholded model_output
  let batch_ts := road_image.enum.foldl
    (fun acc p =>
      acc ++ [compute_ts_road_map (viewSample predicted_road_map p.1) p.2])
    []
  (batch_ts, predicted_road_map)

/-! ### Evaluation loop / aggregator

Source (`src/utils.py`, lines 50-83).  External collaborators are opaque
parameters: the two-mode model, the per-camera stacking of
`torch.stack`, the `dim=1` arg-max reduction of `torch.max`, and
`helper.compute_ts_road_map`.  One data-loader batch carries the
`(sample, target, road_image, extra)` tuple. -/
/-- One `(sample, target, road_image, extra)` tuple yielded by the data
loader. -/
structure EvalBatch (CamImage ρ ε : Type) where
  sample : List (List CamImage)
  target : List (BoundingBox × ℤ)
  road_image : List ρ
  extra : ε

/-- `torch.tensor(...)` on the rasterized `800 x 800` grid: its row-major
flat cell list. -/
def gridToList (g : ℤ → ℤ → ℤ) : List ℤ :=
  (List.range 800).flatMap
    (fun i => (List.range 800).map (fun j => g (i : ℤ) (j : ℤ)))

/-- `np.nanmean`: the mean of the non-NaN scores, NaN (`none`) when
there is none. -/
def nanmean (l : List (Option ℚ)) : Option ℚ :=
  let vals := l.filterMap id
  if vals.length = 0 then none else some (vals.sum / (vals.length : ℚ))

/-- The `single_cam_inputs` stacking loop of `evaluation`: for each of
the `num_images` cameras, stack that camera's image across the batch. -/
def batchCamInputs {CamImage CamTensor : Type}
    (stack : List CamImage → CamTensor) (num_images : ℕ) (dImg : CamImage)
    (sample : List (List CamImage)) : List CamTensor :=
  (List.range num_images).map
    (fun i => stack (sample.map (fun b => b.getD i dImg)))

/-- The body of the evaluation loop for one batch: build the camera
stacks, rasterize the batch target, run both inference modes, score the
lane output per sample and the bbox arg-max against the rasterized grid,
then extend the flat threat-score list and append to the per-batch map
and IoU collections. -/
def evalStep {CamImage CamTensor ρ ε : Type}
    (model : List CamTensor → Bool → List ℚ)
    (stack : List CamImage → CamTensor)
    (argmax1 : List ℚ → List ℤ)
    (compute_ts_road_map : List Bool → ρ → Option ℚ)
    (num_images : ℕ) (dImg : CamImage)
    (acc : List (Option ℚ) × List (List Bool) × List ℚ)
    (batch : EvalBatch CamImage ρ ε) :
    List (Option ℚ) × List (List Bool) × List ℚ :=
  let single_cam_inputs := batchCamInputs stack num_images dImg batch.sample
  let bbox_matrix := gridToList (bounding_box_to_matrix_image batch.target)
  let bev_lane_output := model single_cam_inputs true
  let bev_bbox_output := model single_cam_inputs false
  let tsres := get_ts_for_batch_binary compute_ts_road_map bev_lane_output
    batch.road_image
  let bev_bbox_pred := argmax1 bev_bbox_output
  let mean_iou := compute_bbox_matrix_iou bbox_matrix bev_bbox_pred
  (acc.1 ++ tsres.1, acc.2.1 ++ [tsres.2], acc.2.2 ++ [mean_iou])

/-- `evaluation(model, data_loader, device)` from `src/utils.py`: fold
the loop body over the data loader starting from empty accumulators and
return the NaN-ignoring mean threat score, the predicted-map collection
and the per-batch IoU collection. -/
def evaluation {CamImage CamTensor ρ ε : Type}
    (model : List CamTensor → Bool → List ℚ)
    (stack : List CamImage → CamTensor)
    (argmax1 : List ℚ → List ℤ)
    (compute_ts_road_map : List Bool → ρ → Option ℚ)
    (num_images : ℕ) (dImg : CamImage)
    (data_loader : List (EvalBatch CamImage ρ ε)) :
    Option ℚ × List (List Bool) × List ℚ :=
  let r := data_loader.foldl
    (evalStep model stack argmax1 compute_ts_road_map num_images dImg)
    ([], [], [])
  (nanmean r.1, r.2.1, r.2.2)

/-- The per-sample threat scores of one batch. -/
def batchThreatScores {CamImage CamTensor ρ ε : Type}
    (model : List CamTensor → Bool → List ℚ)
    (stack : List CamImage → CamTensor)
    (compute_ts_road_map : List Bool → ρ → Option ℚ)
    (num_images : ℕ) (dImg : CamImage)
    (batch : EvalBatch CamImage ρ ε) : List (Option ℚ) :=
  (get_ts_for_batch_binary compute_ts_road_map
    (model (batchCamInputs stack num_images dImg batch.sample) true)
    batch.road_image).1

/-- The stacked predicted road map of one batch. -/
def batchPredictedMap {CamImage CamTensor ρ ε : Type}
    (model : List CamTensor → Bool → List ℚ)
    (stack : List CamImage → CamTensor)
    (compute_ts_road_map : List Bool → ρ → Option ℚ)
    (num_images : ℕ) (dImg : CamImage)
    (batch : EvalBatch CamImage ρ ε) : List Bool :=
  (get_ts_for_batch_binary compute_ts_road_map
    (model (batchCamInputs stack num_images dImg batch.sample) true)
    batch.road_image).2

/-- The mean IoU of one batch. -/
def batchMeanIoU {CamImage CamTensor ρ ε : Type}
    (model : List CamTensor → Bool → List ℚ)
    (stack : List CamImage → CamTensor)
    (argmax1 : List ℚ → List ℤ)
    (num_images : ℕ) (dImg : CamImage)
    (batch : EvalBatch CamImage ρ ε) : ℚ :=
  compute_bbox_matrix_iou (gridToList (bounding_box_to_matrix_image batch.target))
    (argmax1 (model (batchCamInputs stack num_images dImg batch.sample) false))

/-! ### Reference partition for claim C3, written from the spec's words:
the sequential contiguous partition of the index sequence into chunks of
size `B`, consecutive draws filling one batch before the next starts. -/
/-- The sequential contiguous partition of `l` into chunks of size `B`
(the final chunk may be shorter). -/
def chunksOf (B : ℕ) (l : List ℕ) : List (List ℕ) :=
  if h : 0 < B ∧ l ≠ [] then
    l.take B :: chunksOf B (l.drop B)
  else []
termination_by l.length
decreasing_by
  have hpos : 0 < l.length := List.length_pos.mpr h.2
  rw [List.length_drop]
  omega

/-! ### Bridge lemmas between the list-level code counts and the
Finset-level spec masks -/
/-- Counting positions of `Finset.range l.length` whose element satisfies a
predicate is the same as counting the list elements that satisfy it. -/
lemma card_filter_range_getD {α : Type} (p : α → Prop) [DecidablePred p]
    (l : List α) (d : α) :
    ((Finset.range l.length).filter (fun i => p (l.getD i d))).card =
      (l.filter (fun x => p x)).length := by
  induction l with
  | nil => simp
  | cons a t ih =>
    rw [Finset.card_filter] at ih ⊢
    rw [List.length_cons, Finset.sum_range_succ']
    simp only [List.getD_cons_succ, List.getD_cons_zero, List.filter_cons]
    by_cases hpa : p a
    · rw [ih]
      simp [hpa]
    · rw [ih]
      simp [hpa]

/-- `countNe` is the cardinality of the spec's presence mask. -/
lemma countNe_eq_card_presenceMask (g : List ℤ) (c : ℤ) :
    countNe g c = (presenceMask g c).card := by
  rw [presenceMask, countNe,
    card_filter_range_getD (fun x : ℤ => x ≠ c) g 0]

/-- Under equal lengths, `countBothNe` is the cardinality of the
intersection of the two presence masks. -/
lemma countBothNe_eq_card_inter (labels predictions : List ℤ)
    (h : labels.length = predictions.length) (c : ℤ) :
    countBothNe labels predictions c =
      (presenceMask labels c ∩ presenceMask predictions c).card := by
  rw [countBothNe,
    ← card_filter_range_getD (fun p : ℤ × ℤ => p.1 ≠ c ∧ p.2 ≠ c)
      (labels.zip predictions) (0, 0)]
  have hlen : (labels.zip predictions).length = labels.length := by
    simp [List.length_zip, h]
  rw [presenceMask, presenceMask, ← h, ← Finset.filter_and, hlen]
  congr 1
  apply Finset.filter_congr
  intro i hi
  rw [Finset.mem_range] at hi
  have hi2 : i < predictions.length := h ▸ hi
  have hiz : i < (labels.zip predictions).length := hlen ▸ hi
  rw [List.getD_eq_getElem _ _ hiz, List.getD_eq_getElem _ _ hi,
    List.getD_eq_getElem _ _ hi2, List.getElem_zip]

/-- The per-class seen condition tested by the code (`labels_c_sum > 0 or
pred_c_sum > 0`) is equivalent to the spec's "either presence mask is
non-empty". -/
lemma seen_cond_iff (labels predictions : List ℤ) (c : ℤ) :
    (0 < countNe labels c ∨ 0 < countNe predictions c) ↔
      ((presenceMask labels c).Nonempty ∨ (presenceMask predictions c).Nonempty) := by
  rw [countNe_eq_card_presenceMask, countNe_eq_card_presenceMask,
    Finset.card_pos, Finset.card_pos]

/-- Unfolding one class from the classes-loop. -/
lemma iouFold_succ (labels predictions : List ℤ) (n : ℕ) :
    iouFold labels predictions (n + 1) =
      iouStep labels predictions (iouFold labels predictions n) (n : ℤ) := by
  simp [iouFold, List.range_succ]

/-- Closed form of the classes-loop: the accumulated `mean_iou` sum is the
sum of the seen classes' contributions, and `seen_classes` is the number
of seen classes. -/
lemma iouFold_eq (labels predictions : List ℤ)
    (h : labels.length = predictions.length) (n : ℕ) :
    iouFold labels predictions n =
      (∑ c in seenSet labels predictions n,
          classContribution labels predictions (c : ℤ),
        (seenSet labels predictions n).card) := by
  induction n with
  | zero => simp [iouFold, seenSet]
  | succ n ih =>
    rw [iouFold_succ, ih, iouStep]
    have hrange : seenSet labels predictions (n + 1) =
        if (presenceMask labels (n : ℤ)).Nonempty ∨
            (presenceMask predictions (n : ℤ)).Nonempty then
          insert n (seenSet labels predictions n)
        else seenSet labels predictions n := by
      rw [seenSet, seenSet, Finset.range_succ, Finset.filter_insert]
    have hnotmem : n ∉ seenSet labels predictions n := by
      rw [seenSet]
      intro hmem
      exact absurd (Finset.mem_of_mem_filter n hmem) (by simp)
    by_cases hc : 0 < countNe labels (n : ℤ) ∨ 0 < countNe predictions (n : ℤ)
    · rw [if_pos hc, hrange, if_pos ((seen_cond_iff _ _ _).mp hc),
        Finset.sum_insert hnotmem, Finset.card_insert_of_not_mem hnotmem]
      have hcontr : classContribution labels predictions (n : ℤ) =
          (countBothNe labels predictions (n : ℤ) : ℚ) /
            (((countNe labels (n : ℤ) : ℤ) + (countNe predictions (n : ℤ) : ℤ) -
              (countBothNe labels predictions (n : ℤ) : ℤ) : ℤ) : ℚ) := by
        rw [classContribution, countNe_eq_card_presenceMask,
          countNe_eq_card_presenceMask, countBothNe_eq_card_inter _ _ h]
        push_cast
        ring_nf
      rw [hcontr]
      dsimp only
      rw [Prod.mk.injEq]
      exact ⟨by ring, rfl⟩
    · rw [if_neg hc, hrange, if_neg (fun hx => hc ((seen_cond_iff _ _ _).mpr hx))]

/-- C1: `compute_bbox_matrix_iou(labels, predictions, n_classes)` equals the
reference mean-IoU written from the spec: per-class presence masks are the
cells not equal to `c`, a class is seen when either mask is non-empty, each
seen class contributes `|∩| / (|m1| + |m2| - |∩|)`, the result is the sum
over seen classes divided by the number of seen classes, and `0` when no
class is seen. -/
theorem compute_bbox_matrix_iou_eq_reference (labels predictions : List ℤ)
    (h : labels.length = predictions.length) (n : ℕ) (hn : 0 < n) :
    compute_bbox_matrix_iou labels predictions n =
      referenceIoU labels predictions n := by
  rw [compute_bbox_matrix_iou, referenceIoU, iouFold_eq _ _ h]
  by_cases hs : (seenSet labels predictions n).Nonempty
  · have hcard : (seenSet labels predictions n).card ≠ 0 :=
      (Finset.card_pos.mpr hs).ne'
    simp [hs, hcard]
  · have hcard : (seenSet labels predictions n).card = 0 := by
      rw [Finset.card_eq_zero]
      exact Finset.not_nonempty_iff_eq_empty.mp hs
    simp [hs, hcard]

/-- Witness for C1 at a concrete input. -/
theorem compute_bbox_matrix_iou_eq_reference_witness :
    compute_bbox_matrix_iou [0, 1, 2] [0, 1, 1] 3 =
      referenceIoU [0, 1, 2] [0, 1, 1] 3 :=
  compute_bbox_matrix_iou_eq_reference [0, 1, 2] [0, 1, 1] (by decide) 3
    (by decide)

/-- C9: whenever the seen branch of `compute_bbox_matrix_iou` is taken
(`labels_c_sum > 0 or pred_c_sum > 0`), the divisor
`union = labels_c_sum + pred_c_sum - intersect` is strictly positive, so
the per-class division never divides by zero. -/
theorem iou_union_pos (labels predictions : List ℤ)
    (h : labels.length = predictions.length) (c : ℤ)
    (hseen : 0 < countNe labels c ∨ 0 < countNe predictions c) :
    0 < (countNe labels c : ℤ) + (countNe predictions c : ℤ) -
        (countBothNe labels predictions c : ℤ) := by
  have h1 : countBothNe labels predictions c ≤ countNe labels c := by
    rw [countBothNe_eq_card_inter _ _ h, countNe_eq_card_presenceMask]
    exact Finset.card_le_card Finset.inter_subset_left
  have h2 : countBothNe labels predictions c ≤ countNe predictions c := by
    rw [countBothNe_eq_card_inter _ _ h, countNe_eq_card_presenceMask]
    exact Finset.card_le_card Finset.inter_subset_right
  omega

/-- Witness for C9 at a concrete input. -/
theorem iou_union_pos_witness :
    0 < (countNe [0, 1] 0 : ℤ) + (countNe [2, 3] 0 : ℤ) -
        (countBothNe [0, 1] [2, 3] 0 : ℤ) :=
  iou_union_pos [0, 1] [2, 3] (by decide) 0 (by decide)

/-- If the presence mask of class `c` in a non-empty grid is empty, then
the grid's first cell (like every cell) equals `c`. -/
lemma head_eq_of_presenceMask_empty (x : ℤ) (t : List ℤ) (c : ℤ)
    (hm : presenceMask (x :: t) c = ∅) : x = c := by
  by_contra hx
  have h0 : 0 ∈ presenceMask (x :: t) c := by
    rw [presenceMask]
    simp [hx]
  rw [hm] at h0
  exact absurd h0 (Finset.not_mem_empty 0)

/-- With a non-empty `labels` grid, at most one class can be unseen, so at
least `n - 1` classes are seen. -/
lemma seenSet_card_ge (labels predictions : List ℤ) (hne : labels ≠ [])
    (n : ℕ) : n - 1 ≤ (seenSet labels predictions n).card := by
  obtain ⟨x, t, rfl⟩ := List.exists_cons_of_ne_nil hne
  have hsplit := Finset.filter_card_add_filter_neg_card_eq_card
    (s := Finset.range n)
    (p := fun c : ℕ => (presenceMask (x :: t) (c : ℤ)).Nonempty ∨
      (presenceMask predictions (c : ℤ)).Nonempty)
  have hle1 : ((Finset.range n).filter
      (fun c : ℕ => ¬((presenceMask (x :: t) (c : ℤ)).Nonempty ∨
        (presenceMask predictions (c : ℤ)).Nonempty))).card ≤ 1 := by
    apply Finset.card_le_one.mpr
    intro a ha b hb
    rw [Finset.mem_filter] at ha hb
    have hxa : x = (a : ℤ) := head_eq_of_presenceMask_empty x t _
      (Finset.not_nonempty_iff_eq_empty.mp (fun hcon => ha.2 (Or.inl hcon)))
    have hxb : x = (b : ℤ) := head_eq_of_presenceMask_empty x t _
      (Finset.not_nonempty_iff_eq_empty.mp (fun hcon => hb.2 (Or.inl hcon)))
    have hab : (a : ℤ) = (b : ℤ) := hxa ▸ hxb
    exact_mod_cast hab
  rw [seenSet]
  rw [Finset.card_range] at hsplit
  omega

/-- C10: for non-empty same-shape grids and `n_classes >= 2`, at most one
class can be unseen, so the final `seen_classes` counter is at least
`n_classes - 1` and is non-zero: the zero-seen fallback that returns `0`
is unreachable for non-empty grids. -/
theorem iou_seen_classes_lower_bound (labels predictions : List ℤ)
    (hne : labels ≠ []) (h : labels.length = predictions.length)
    (n : ℕ) (hn : 2 ≤ n) :
    n - 1 ≤ (iouFold labels predictions n).2 ∧
      (iouFold labels predictions n).2 ≠ 0 := by
  rw [iouFold_eq _ _ h]
  have hge := seenSet_card_ge labels predictions hne n
  exact ⟨hge, by omega⟩

/-- Witness for C10 at a concrete input. -/
theorem iou_seen_classes_lower_bound_witness :
    2 - 1 ≤ (iouFold [3] [4] 2).2 ∧ (iouFold [3] [4] 2).2 ≠ 0 :=
  iou_seen_classes_lower_bound [3] [4] (by decide) (by decide) 2 (by decide)

/-- C4: for identical non-empty grids (ground truth equal to prediction,
labels in `[0, 10)`), `compute_bbox_matrix_iou` returns exactly `1`:
every seen class has per-class IoU `1` and the mean over seen classes is
`1`. -/
theorem iou_identical_grids_eq_one (labels : List ℤ) (hne : labels ≠ [])
    (hrange : ∀ x ∈ labels, 0 ≤ x ∧ x < 10) :
    compute_bbox_matrix_iou labels labels 10 = 1 := by
  have hcard : (seenSet labels labels 10).card ≠ 0 := by
    have := seenSet_card_ge labels labels hne 10
    omega
  have hone : ∀ c ∈ seenSet labels labels 10,
      classContribution labels labels (c : ℤ) = 1 := by
    intro c hcmem
    rw [seenSet, Finset.mem_filter] at hcmem
    have hm : (presenceMask labels (c : ℤ)).Nonempty := hcmem.2.elim id id
    have hmc : ((presenceMask labels (c : ℤ)).card : ℚ) ≠ 0 :=
      Nat.cast_ne_zero.mpr (Finset.card_pos.mpr hm).ne'
    simp only [classContribution, Finset.inter_self]
    rw [add_sub_cancel_right]
    exact div_self hmc
  rw [compute_bbox_matrix_iou, iouFold_eq _ _ rfl]
  dsimp only
  rw [Finset.sum_congr rfl hone, Finset.sum_const, nsmul_eq_mul, mul_one,
    if_pos hcard]
  exact div_self (Nat.cast_ne_zero.mpr hcard)

/-- Witness for C4 at a concrete input. -/
theorem iou_identical_grids_eq_one_witness :
    compute_bbox_matrix_iou [3, 0, 5] [3, 0, 5] 10 = 1 :=
  iou_identical_grids_eq_one [3, 0, 5] (by decide) (by decide)

lemma mem_rangeZ (a b k : ℤ) : k ∈ rangeZ a b ↔ a ≤ k ∧ k < b := by
  rw [rangeZ, List.mem_map]
  constructor
  · rintro ⟨m, hm, rfl⟩
    rw [List.mem_range] at hm
    omega
  · rintro ⟨h1, h2⟩
    refine ⟨(k - a).toNat, ?_, by omega⟩
    rw [List.mem_range]
    omega

/-- Pointwise effect of the inner `for j` loop: a cell holds `label` if it
was written by some iteration, and is otherwise untouched. -/
lemma foldl_stampCell_apply (label i : ℤ) (js : List ℤ) (g : ℤ → ℤ → ℤ)
    (r c : ℤ) :
    (js.foldl (fun g2 j => stampCell g2 label i j) g) r c =
      if ∃ j ∈ js, r = pyIdx 800 (-i) ∧ c = pyIdx 800 j then label
      else g r c := by
  induction js generalizing g with
  | nil => simp
  | cons j rest ih =>
    rw [List.foldl_cons, ih]
    by_cases hrest : ∃ j' ∈ rest, r = pyIdx 800 (-i) ∧ c = pyIdx 800 j'
    · rw [if_pos hrest, if_pos]
      obtain ⟨j', hj', hrc⟩ := hrest
      exact ⟨j', List.mem_cons_of_mem j hj', hrc⟩
    · rw [if_neg hrest, stampCell]
      by_cases hhere : r = pyIdx 800 (-i) ∧ c = pyIdx 800 j
      · rw [if_pos hhere, if_pos ⟨j, List.mem_cons_self j rest, hhere⟩]
      · rw [if_neg hhere, if_neg]
        rintro ⟨j', hj', hrc⟩
        rcases List.mem_cons.mp hj' with rfl | hj'mem
        · exact hhere hrc
        · exact hrest ⟨j', hj'mem, hrc⟩

/-- Pointwise effect of the two nested stamping loops of one box. -/
lemma stampBox_apply (g : ℤ → ℤ → ℤ) (label : ℤ) (b : BoundingBox)
    (r c : ℤ) :
    stampBox g label b r c =
      if ∃ i ∈ rangeZ (min_x b) (max_x b), ∃ j ∈ rangeZ (min_y b) (max_y b),
          r = pyIdx 800 (-i) ∧ c = pyIdx 800 j then label
      else g r c := by
  rw [stampBox]
  generalize rangeZ (min_x b) (max_x b) = is
  induction is generalizing g with
  | nil => simp
  | cons i rest ih =>
    rw [List.foldl_cons, ih]
    by_cases hrest : ∃ i' ∈ rest, ∃ j ∈ rangeZ (min_y b) (max_y b),
        r = pyIdx 800 (-i') ∧ c = pyIdx 800 j
    · rw [if_pos hrest, if_pos]
      obtain ⟨i', hi', hrc⟩ := hrest
      exact ⟨i', List.mem_cons_of_mem i hi', hrc⟩
    · rw [if_neg hrest, foldl_stampCell_apply]
      by_cases hhere : ∃ j ∈ rangeZ (min_y b) (max_y b),
          r = pyIdx 800 (-i) ∧ c = pyIdx 800 j
      · rw [if_pos hhere, if_pos ⟨i, List.mem_cons_self i rest, hhere⟩]
      · rw [if_neg hhere, if_neg]
        rintro ⟨i', hi', hrc⟩
        rcases List.mem_cons.mp hi' with rfl | hi'mem
        · exact hhere hrc
        · exact hrest ⟨i', hi'mem, hrc⟩

/-- For an in-bounds cell, being written by some iteration of the two
loops is the same as lying in the mirrored stamped rectangle. -/
lemma stamp_cond_iff (mnx mxx mny mxy r c : ℤ)
    (hr1 : 0 ≤ r) (hr2 : r < 800) (hc1 : 0 ≤ c) (hmnx : 1 ≤ mnx)
    (hmny : 0 ≤ mny) :
    (∃ i ∈ rangeZ mnx mxx, ∃ j ∈ rangeZ mny mxy,
        r = pyIdx 800 (-i) ∧ c = pyIdx 800 j) ↔
      (mnx ≤ 800 - r ∧ 800 - r < mxx ∧ mny ≤ c ∧ c < mxy) := by
  constructor
  · rintro ⟨i, hi, j, hj, hri, hcj⟩
    rw [mem_rangeZ] at hi hj
    rw [pyIdx] at hri hcj
    rw [if_pos (by omega : -i < 0)] at hri
    rw [if_neg (by omega : ¬(j < 0))] at hcj
    omega
  · rintro ⟨h1, h2, h3, h4⟩
    refine ⟨800 - r, (mem_rangeZ _ _ _).mpr ⟨h1, h2⟩,
      c, (mem_rangeZ _ _ _).mpr ⟨h3, h4⟩, ?_, ?_⟩
    · rw [pyIdx, if_pos (by omega : -(800 - r) < 0)]
      omega
    · rw [pyIdx, if_neg (by omega : ¬(c < 0))]

/-- C2: for a single annotated box whose transformed rectangle lies within
grid bounds, the rasterized grid holds the box's category label exactly at
the cells of the mirrored rectangle (row `r` is stamped when the mirrored
row index `800 - r` lies in `[min_x, max_x)` and the column lies in
`[min_y, max_y)`) and the background label `9` everywhere else; the
number of grid cells holding the label is exactly the rectangle's area
`(max_x - min_x) * (max_y - min_y)`. -/
theorem single_box_raster (b : BoundingBox) (label : ℤ)
    (hx1 : 1 ≤ min_x b) (hx2 : max_x b ≤ 800)
    (hy1 : 0 ≤ min_y b) (hy2 : max_y b ≤ 800) (hlabel : label ≠ 9) :
    (∀ r c : ℤ, 0 ≤ r → r < 800 → 0 ≤ c → c < 800 →
      bounding_box_to_matrix_image [(b, label)] r c =
        if min_x b ≤ 800 - r ∧ 800 - r < max_x b ∧ min_y b ≤ c ∧ c < max_y b
        then label else 9) ∧
    ((Finset.Ico (0 : ℤ) 800 ×ˢ Finset.Ico (0 : ℤ) 800).filter
        (fun p => bounding_box_to_matrix_image [(b, label)] p.1 p.2 = label)).card =
      (max_x b - min_x b).toNat * (max_y b - min_y b).toNat := by
  have hpt : ∀ r c : ℤ, 0 ≤ r → r < 800 → 0 ≤ c → c < 800 →
      bounding_box_to_matrix_image [(b, label)] r c =
        if min_x b ≤ 800 - r ∧ 800 - r < max_x b ∧ min_y b ≤ c ∧ c < max_y b
        then label else 9 := by
    intro r c hr1 hr2 hc1 hc2
    show stampBox (fun _ _ => 9) label b r c = _
    rw [stampBox_apply,
      if_congr (stamp_cond_iff (min_x b) (max_x b) (min_y b) (max_y b) r c
        hr1 hr2 hc1 hx1 hy1) rfl rfl]
  refine ⟨hpt, ?_⟩
  have hset : (Finset.Ico (0 : ℤ) 800 ×ˢ Finset.Ico (0 : ℤ) 800).filter
      (fun p => bounding_box_to_matrix_image [(b, label)] p.1 p.2 = label) =
      ((Finset.Ico (min_x b) (max_x b)).image (fun i => 800 - i)) ×ˢ
        Finset.Ico (min_y b) (max_y b) := by
    ext p
    obtain ⟨r, c⟩ := p
    simp only [Finset.mem_filter, Finset.mem_product, Finset.mem_Ico,
      Finset.mem_image]
    constructor
    · rintro ⟨⟨⟨hr1, hr2⟩, hc1, hc2⟩, hval⟩
      rw [hpt r c hr1 hr2 hc1 hc2] at hval
      by_cases hcond : min_x b ≤ 800 - r ∧ 800 - r < max_x b ∧
          min_y b ≤ c ∧ c < max_y b
      · exact ⟨⟨800 - r, ⟨hcond.1, hcond.2.1⟩, by omega⟩, hcond.2.2.1,
          hcond.2.2.2⟩
      · rw [if_neg hcond] at hval
        exact absurd hval.symm hlabel
    · rintro ⟨⟨i, ⟨hi1, hi2⟩, rfl⟩, hc3, hc4⟩
      have hr1 : (0 : ℤ) ≤ 800 - i := by omega
      have hr2 : (800 : ℤ) - i < 800 := by omega
      have hc1 : 0 ≤ c := by omega
      have hc2 : c < 800 := by omega
      refine ⟨⟨⟨hr1, hr2⟩, hc1, hc2⟩, ?_⟩
      rw [hpt _ _ hr1 hr2 hc1 hc2, if_pos ⟨by omega, by omega, hc3, hc4⟩]
  rw [hset, Finset.card_product,
    Finset.card_image_of_injective _ sub_right_injective, Int.card_Ico,
    Int.card_Ico]

/-- Witness for C2: a box whose transformed rectangle is rows `[10, 12)`
and columns `[5, 8)` with category label `3` yields exactly `2 * 3 = 6`
cells labeled `3`. -/
theorem single_box_raster_witness :
    (∀ r c : ℤ, 0 ≤ r → r < 800 → 0 ≤ c → c < 800 →
      bounding_box_to_matrix_image
          [(BoundingBox.mk (-79/2) [-196/5] (-39) [-194/5], 3)] r c =
        if min_x (BoundingBox.mk (-79/2) [-196/5] (-39) [-194/5]) ≤ 800 - r ∧
            800 - r < max_x (BoundingBox.mk (-79/2) [-196/5] (-39) [-194/5]) ∧
            min_y (BoundingBox.mk (-79/2) [-196/5] (-39) [-194/5]) ≤ c ∧
            c < max_y (BoundingBox.mk (-79/2) [-196/5] (-39) [-194/5])
        then 3 else 9) ∧
    ((Finset.Ico (0 : ℤ) 800 ×ˢ Finset.Ico (0 : ℤ) 800).filter
        (fun p => bounding_box_to_matrix_image
          [(BoundingBox.mk (-79/2) [-196/5] (-39) [-194/5], 3)] p.1 p.2 = 3)).card =
      6 := by
  have hmain := single_box_raster
    (BoundingBox.mk (-79/2) [-196/5] (-39) [-194/5]) 3
    (by norm_num [min_x, rowMin, affine]) (by norm_num [max_x, rowMax, affine])
    (by norm_num [min_y, rowMin, affine]) (by norm_num [max_y, rowMax, affine])
    (by norm_num)
  refine ⟨hmain.1, ?_⟩
  rw [hmain.2]
  norm_num [min_x, max_x, min_y, max_y, rowMin, rowMax, affine]
  decide

/-- C5: when two annotated boxes with in-bounds rectangles are stamped in
input order, every cell lying in both mirrored rectangles ends up holding
the second (later) box's label: last write wins, with no priority by
label value. -/
theorem overlap_last_write_wins (b1 b2 : BoundingBox) (l1 l2 : ℤ)
    (hx1 : 1 ≤ min_x b1) (hx2 : max_x b1 ≤ 800)
    (hy1 : 0 ≤ min_y b1) (hy2 : max_y b1 ≤ 800)
    (hx1' : 1 ≤ min_x b2) (hx2' : max_x b2 ≤ 800)
    (hy1' : 0 ≤ min_y b2) (hy2' : max_y b2 ≤ 800)
    (r c : ℤ) (hr1 : 0 ≤ r) (hr2 : r < 800) (hc1 : 0 ≤ c) (hc2 : c < 800)
    (hin1 : min_x b1 ≤ 800 - r ∧ 800 - r < max_x b1 ∧
      min_y b1 ≤ c ∧ c < max_y b1)
    (hin2 : min_x b2 ≤ 800 - r ∧ 800 - r < max_x b2 ∧
      min_y b2 ≤ c ∧ c < max_y b2) :
    bounding_box_to_matrix_image [(b1, l1), (b2, l2)] r c = l2 := by
  show stampBox (stampBox (fun _ _ => 9) l1 b1) l2 b2 r c = l2
  rw [stampBox_apply,
    if_pos ((stamp_cond_iff (min_x b2) (max_x b2) (min_y b2) (max_y b2) r c
      hr1 hr2 hc1 hx1' hy1').mpr hin2)]

/-- Witness for C5: overlapping boxes labeled `2` then `5`; the overlap
cell ends up labeled `5`. -/
theorem overlap_last_write_wins_witness :
    bounding_box_to_matrix_image
        [(BoundingBox.mk (-79/2) [-196/5] (-39) [-387/10], 2),
         (BoundingBox.mk (-197/5) [-391/10] (-389/10) [-193/5], 5)] 788 6 = 5 :=
  overlap_last_write_wins
    (BoundingBox.mk (-79/2) [-196/5] (-39) [-387/10])
    (BoundingBox.mk (-197/5) [-391/10] (-389/10) [-193/5]) 2 5
    (by norm_num [min_x, rowMin, affine]) (by norm_num [max_x, rowMax, affine])
    (by norm_num [min_y, rowMin, affine]) (by norm_num [max_y, rowMax, affine])
    (by norm_num [min_x, rowMin, affine]) (by norm_num [max_x, rowMax, affine])
    (by norm_num [min_y, rowMin, affine]) (by norm_num [max_y, rowMax, affine])
    788 6 (by norm_num) (by norm_num) (by norm_num) (by norm_num)
    (by norm_num [min_x, max_x, min_y, max_y, rowMin, rowMax, affine])
    (by norm_num [min_x, max_x, min_y, max_y, rowMin, rowMax, affine])

/-- Invariant of the batching loop: flattening the flushed batches and
appending the pending batch recovers everything consumed so far. -/
lemma batchFold_flatten (B : ℕ) (idxs : List ℕ) :
    ∀ (acc : List (List ℕ)) (cur : List ℕ),
      (idxs.foldl (batchStep B) (acc, cur)).1.flatten ++
          (idxs.foldl (batchStep B) (acc, cur)).2 =
        acc.flatten ++ cur ++ idxs := by
  induction idxs with
  | nil => intro acc cur; simp
  | cons x t ih =>
    intro acc cur
    rw [List.foldl_cons, batchStep]
    dsimp only
    by_cases hlen : (cur ++ [x]).length = B
    · rw [if_pos hlen, ih]
      simp
    · rw [if_neg hlen, ih]
      simp

/-- Invariant of the batching loop: the pending batch stays shorter than
`batch_size`, and its length tracks the consumed count modulo
`batch_size`. -/
lemma batchFold_pending_length (B : ℕ) (hB : 0 < B) (idxs : List ℕ) :
    ∀ (acc : List (List ℕ)) (cur : List ℕ), cur.length < B →
      (idxs.foldl (batchStep B) (acc, cur)).2.length =
          (cur.length + idxs.length) % B ∧
        (idxs.foldl (batchStep B) (acc, cur)).2.length < B := by
  induction idxs with
  | nil =>
    intro acc cur hcur
    exact ⟨by simpa using (Nat.mod_eq_of_lt hcur).symm, by simpa using hcur⟩
  | cons x t ih =>
    intro acc cur hcur
    rw [List.foldl_cons, batchStep]
    dsimp only
    by_cases hlen : (cur ++ [x]).length = B
    · rw [if_pos hlen]
      rw [List.length_append, List.length_singleton] at hlen
      obtain ⟨h1, h2⟩ := ih (acc ++ [cur ++ [x]]) [] (by simpa using hB)
      refine ⟨?_, h2⟩
      rw [h1, List.length_nil, List.length_cons, Nat.zero_add]
      have harith : cur.length + (t.length + 1) = B + t.length := by omega
      rw [harith, Nat.add_mod_left]
    · rw [if_neg hlen]
      rw [List.length_append, List.length_singleton] at hlen
      have hclt : (cur ++ [x]).length < B := by
        rw [List.length_append, List.length_singleton]
        omega
      obtain ⟨h1, h2⟩ := ih acc (cur ++ [x]) hclt
      refine ⟨?_, h2⟩
      rw [h1, List.length_append, List.length_singleton, List.length_cons]
      have harith : cur.length + 1 + t.length = cur.length + (t.length + 1) := by
        omega
      rw [harith]

/-- With `drop_last=False`, the batches of one traversal flatten back to
the whole underlying index sequence. -/
lemma all_batches_flatten_false (sampler : List ℕ) (B : ℕ) :
    (all_batches sampler B false).flatten = sampler := by
  rw [all_batches]
  have hjoin := batchFold_flatten B sampler [] []
  simp only [List.flatten_nil, List.nil_append] at hjoin
  by_cases hne : 0 < (sampler.foldl (batchStep B) ([], [])).2.length
  · rw [if_pos ⟨hne, rfl⟩, List.flatten_append, List.flatten_cons,
      List.flatten_nil, List.append_nil]
    exact hjoin
  · rw [if_neg (fun hcon => hne hcon.1)]
    have hnil : (sampler.foldl (batchStep B) ([], [])).2 = [] :=
      List.eq_nil_of_length_eq_zero (by omega)
    rw [hnil, List.append_nil] at hjoin
    exact hjoin

/-- With `drop_last=True`, the batches of one traversal flatten to exactly
the first `B * (N / B)` underlying indices. -/
lemma all_batches_flatten_true (sampler : List ℕ) (B : ℕ) (hB : 0 < B) :
    (all_batches sampler B true).flatten =
      sampler.take (B * (sampler.length / B)) := by
  rw [all_batches]
  rw [if_neg (by simp)]
  have hjoin := batchFold_flatten B sampler [] []
  simp only [List.flatten_nil, List.nil_append] at hjoin
  obtain ⟨hlen, -⟩ :=
    batchFold_pending_length B hB sampler [] [] (by simpa using hB)
  rw [List.length_nil, Nat.zero_add] at hlen
  have htake : (sampler.foldl (batchStep B) ([], [])).1.flatten =
      sampler.take (sampler.foldl (batchStep B) ([], [])).1.flatten.length := by
    nth_rewrite 3 [← hjoin]
    rw [List.take_left]
  have hflen : (sampler.foldl (batchStep B) ([], [])).1.flatten.length =
      B * (sampler.length / B) := by
    have htotal : (sampler.foldl (batchStep B) ([], [])).1.flatten.length +
        (sampler.foldl (batchStep B) ([], [])).2.length = sampler.length := by
      have := congrArg List.length hjoin
      rwa [List.length_append] at this
    have hdm := Nat.div_add_mod sampler.length B
    rw [hlen] at htotal
    exact Nat.add_right_cancel (htotal.trans hdm.symm)
  rw [htake, hflen]

/-- Reading every position of a list in order reproduces the list. -/
lemma map_getD_range {α : Type} (l : List α) (d : α) :
    (List.range l.length).map (fun i => l.getD i d) = l := by
  induction l with
  | nil => simp
  | cons a t ih =>
    rw [List.length_cons, List.range_succ_eq_map, List.map_cons, List.map_map]
    refine congrArg₂ (· :: ·) (by simp) ?_
    have hcongr : (List.range t.length).map
          ((fun i => (a :: t).getD i d) ∘ Nat.succ) =
        (List.range t.length).map (fun i => t.getD i d) :=
      List.map_congr_left (fun i _ => by simp)
    rw [hcongr, ih]

/-- A permutation of a list of lists flattens to a permutation of the
flattening. -/
lemma perm_flatten {α : Type} {l₁ l₂ : List (List α)} (h : l₁.Perm l₂) :
    l₁.flatten.Perm l₂.flatten := by
  induction h with
  | nil => exact List.Perm.refl _
  | cons x _ ih => simpa using ih.append_left x
  | swap x y l =>
    simp only [List.flatten_cons]
    rw [← List.append_assoc, ← List.append_assoc]
    exact List.perm_append_comm.append_right _
  | trans _ _ ih1 ih2 => exact ih1.trans ih2

/-- The integer formula `(N + B - 1) / B` used by `__len__` computes the
ceiling of the exact division. -/
lemma add_pred_div_eq_ceil (N B : ℕ) (hB : 0 < B) :
    (N + B - 1) / B = ⌈(N : ℚ) / (B : ℚ)⌉₊ := by
  have hBQ : (0 : ℚ) < (B : ℚ) := by exact_mod_cast hB
  apply le_antisymm
  · rw [← Nat.ceilDiv_eq_add_pred_div, ceilDiv_le_iff_le_smul hB, smul_eq_mul]
    have h1 : (N : ℚ) / (B : ℚ) ≤ (⌈(N : ℚ) / (B : ℚ)⌉₊ : ℚ) := Nat.le_ceil _
    have h2 : (N : ℚ) ≤ (B : ℚ) * (⌈(N : ℚ) / (B : ℚ)⌉₊ : ℚ) := by
      rw [mul_comm]
      exact (div_le_iff₀ hBQ).mp h1
    exact_mod_cast h2
  · rw [Nat.ceil_le, div_le_iff₀ hBQ]
    have hle : N ≤ B * ((N + B - 1) / B) := by
      have := le_smul_ceilDiv (a := B) (b := N) hB
      rwa [smul_eq_mul, Nat.ceilDiv_eq_add_pred_div] at this
    calc (N : ℚ) ≤ ((B * ((N + B - 1) / B) : ℕ) : ℚ) := by exact_mod_cast hle
      _ = (((N + B - 1) / B : ℕ) : ℚ) * (B : ℚ) := by push_cast; ring

/-- C6: `RandomBatchSampler.__len__` returns `floor(N/B)` batches when
`drop_last` is set and `ceil(N/B)` batches otherwise, for underlying
sequence length `N` and batch size `B > 0`. -/
theorem sampler_len_eq (N B : ℕ) (hB : 0 < B) :
    RandomBatchSampler_len N B true = ⌊(N : ℚ) / (B : ℚ)⌋₊ ∧
      RandomBatchSampler_len N B false = ⌈(N : ℚ) / (B : ℚ)⌉₊ := by
  constructor
  · rw [RandomBatchSampler_len, if_pos rfl, Nat.floor_div_eq_div]
  · rw [RandomBatchSampler_len, if_neg (by simp), add_pred_div_eq_ceil N B hB]

/-- Witness for C6 at `N = 7`, `B = 2`. -/
theorem sampler_len_eq_witness :
    RandomBatchSampler_len 7 2 true = ⌊(7 : ℚ) / (2 : ℚ)⌋₊ ∧
      RandomBatchSampler_len 7 2 false = ⌈(7 : ℚ) / (2 : ℚ)⌉₊ :=
  sampler_len_eq 7 2 (by decide)

/-- Appending one mapped element per step is the same as appending the
mapped list. -/
lemma foldl_append_singleton {α β : Type} (f : α → β) (l : List α) :
    ∀ acc : List β, l.foldl (fun acc x => acc ++ [f x]) acc = acc ++ l.map f := by
  induction l with
  | nil => intro acc; simp
  | cons x t ih =>
    intro acc
    rw [List.foldl_cons, ih]
    simp

/-- C7: `get_ts_for_batch_binary` returns exactly the pair of (a) one
score per ground-truth road mask, the `k`-th being the external
threat-score function applied to the `k`-th predicted `800 x 800` mask
slice and the `k`-th road mask, and (b) the stacked predicted masks,
namely the cells of the model output strictly greater than `0.5`. -/
theorem get_ts_for_batch_binary_spec {ρ σ : Type}
    (compute_ts_road_map : List Bool → ρ → σ)
    (model_output : List ℚ) (road_image : List ρ) :
    (get_ts_for_batch_binary compute_ts_road_map model_output road_image).1.length =
        road_image.length ∧
      (∀ k r, road_image[k]? = some r →
        (get_ts_for_batch_binary compute_ts_road_map model_output road_image).1[k]? =
          some (compute_ts_road_map (viewSample (thresholded model_output) k) r)) ∧
      (get_ts_for_batch_binary compute_ts_road_map model_output road_image).2 =
        model_output.map (fun x => decide ((1 : ℚ) / 2 < x)) := by
  have hlist : (get_ts_for_batch_binary compute_ts_road_map model_output
      road_image).1 = road_image.enum.map
        (fun p => compute_ts_road_map (viewSample (thresholded model_output) p.1) p.2) := by
    rw [get_ts_for_batch_binary]
    dsimp only
    rw [foldl_append_singleton
      (fun p : ℕ × ρ =>
        compute_ts_road_map (viewSample (thresholded model_output) p.1) p.2)
      road_image.enum []]
    rw [List.nil_append]
  refine ⟨?_, ?_, rfl⟩
  · rw [hlist, List.length_map, List.enum_length]
  · intro k r hkr
    rw [hlist, List.getElem?_map, List.getElem?_enum, hkr]
    rfl

/-- Witness for C7 at a concrete input. -/
theorem get_ts_for_batch_binary_spec_witness :
    (get_ts_for_batch_binary
        (fun (mask : List Bool) (r : ℕ) => mask.length + r)
        [1, 0, 2/5] [7]).1[0]? =
      some ((fun (mask : List Bool) (r : ℕ) => mask.length + r)
        (viewSample (thresholded [1, 0, 2/5]) 0) 7) :=
  (get_ts_for_batch_binary_spec
    (fun (mask : List Bool) (r : ℕ) => mask.length + r)
    [1, 0, 2/5] [7]).2.1 0 7 rfl

/-- C8: `evaluation` accumulates threat scores at per-sample granularity
(each batch's score list extends one flat list) and the other two
outputs at per-batch granularity (one predicted map and one mean IoU
appended per batch), and returns the triple of the NaN-ignoring mean of
the flat threat-score list, the list of per-batch predicted maps, and
the list of per-batch mean IoUs. -/
theorem evaluation_spec {CamImage CamTensor ρ ε : Type}
    (model : List CamTensor → Bool → List ℚ)
    (stack : List CamImage → CamTensor)
    (argmax1 : List ℚ → List ℤ)
    (compute_ts_road_map : List Bool → ρ → Option ℚ)
    (num_images : ℕ) (dImg : CamImage)
    (data_loader : List (EvalBatch CamImage ρ ε)) :
    evaluation model stack argmax1 compute_ts_road_map num_images dImg
        data_loader =
      (nanmean ((data_loader.map (batchThreatScores model stack
          compute_ts_road_map num_images dImg)).flatten),
        data_loader.map (batchPredictedMap model stack compute_ts_road_map
          num_images dImg),
        data_loader.map (batchMeanIoU model stack argmax1 num_images dImg)) := by
  have hstep : ∀ (acc : List (Option ℚ) × List (List Bool) × List ℚ)
      (batch : EvalBatch CamImage ρ ε),
      evalStep model stack argmax1 compute_ts_road_map num_images dImg
          acc batch =
        (acc.1 ++ batchThreatScores model stack compute_ts_road_map
            num_images dImg batch,
          acc.2.1 ++ [batchPredictedMap model stack compute_ts_road_map
            num_images dImg batch],
          acc.2.2 ++ [batchMeanIoU model stack argmax1 num_images dImg batch]) :=
    fun _ _ => rfl
  have hfold : ∀ (dl : List (EvalBatch CamImage ρ ε))
      (acc : List (Option ℚ) × List (List Bool) × List ℚ),
      dl.foldl (evalStep model stack argmax1 compute_ts_road_map num_images
          dImg) acc =
        (acc.1 ++ (dl.map (batchThreatScores model stack compute_ts_road_map
            num_images dImg)).flatten,
          acc.2.1 ++ dl.map (batchPredictedMap model stack compute_ts_road_map
            num_images dImg),
          acc.2.2 ++ dl.map (batchMeanIoU model stack argmax1 num_images
            dImg)) := by
    intro dl
    induction dl with
    | nil => intro acc; simp
    | cons b t ih =>
      intro acc
      rw [List.foldl_cons, hstep, ih]
      simp [List.append_assoc]
  rw [evaluation]
  rw [hfold data_loader ([], [], [])]
  simp only [List.nil_append]

/-- Witness for C8 at a concrete single-batch data source. -/
theorem evaluation_spec_witness :
    evaluation (fun (_ : List ℕ) (_ : Bool) => [1])
        (fun l : List ℕ => l.length) (fun _ => [0])
        (fun _ _ => some 1) 1 0
        [EvalBatch.mk [[2]] [] [3] (4 : ℕ)] =
      (nanmean (([EvalBatch.mk [[2]] [] [3] (4 : ℕ)].map
          (batchThreatScores (fun (_ : List ℕ) (_ : Bool) => [1])
            (fun l : List ℕ => l.length) (fun _ _ => some 1) 1 0)).flatten),
        [EvalBatch.mk [[2]] [] [3] (4 : ℕ)].map
          (batchPredictedMap (fun (_ : List ℕ) (_ : Bool) => [1])
            (fun l : List ℕ => l.length) (fun _ _ => some 1) 1 0),
        [EvalBatch.mk [[2]] [] [3] (4 : ℕ)].map
          (batchMeanIoU (fun (_ : List ℕ) (_ : Bool) => [1])
            (fun l : List ℕ => l.length) (fun _ => [0]) 1 0)) :=
  evaluation_spec (fun (_ : List ℕ) (_ : Bool) => [1])
    (fun l : List ℕ => l.length) (fun _ => [0]) (fun _ _ => some 1) 1 0
    [EvalBatch.mk [[2]] [] [3] (4 : ℕ)]

lemma chunksOf_nil (B : ℕ) : chunksOf B [] = [] := by
  rw [chunksOf]
  simp

lemma chunksOf_cons (B : ℕ) (hB : 0 < B) (l : List ℕ) (hl : l ≠ []) :
    chunksOf B l = l.take B :: chunksOf B (l.drop B) := by
  rw [chunksOf, dif_pos ⟨hB, hl⟩]

/-- If the remaining input cannot fill the pending batch, the batching
loop just extends the pending batch. -/
lemma batchFold_short (B : ℕ) (l : List ℕ) :
    ∀ (acc : List (List ℕ)) (cur : List ℕ), cur.length + l.length < B →
      l.foldl (batchStep B) (acc, cur) = (acc, cur ++ l) := by
  induction l with
  | nil =>
    intro acc cur _
    simp
  | cons x t ih =>
    intro acc cur h
    rw [List.length_cons] at h
    rw [List.foldl_cons, batchStep]
    dsimp only
    rw [if_neg (by rw [List.length_append, List.length_singleton]; omega)]
    rw [ih acc (cur ++ [x])
      (by rw [List.length_append, List.length_singleton]; omega)]
    simp

/-- If the remaining input can fill the pending batch, the batching loop
flushes one full batch made of the pending elements and the next
`B - cur.length` draws, then continues from an empty pending batch. -/
lemma batchFold_flush (B : ℕ) (l : List ℕ) :
    ∀ (acc : List (List ℕ)) (cur : List ℕ), cur.length < B →
      B ≤ cur.length + l.length →
      l.foldl (batchStep B) (acc, cur) =
        (l.drop (B - cur.length)).foldl (batchStep B)
          (acc ++ [cur ++ l.take (B - cur.length)], []) := by
  induction l with
  | nil =>
    intro acc cur h1 h2
    rw [List.length_nil, Nat.add_zero] at h2
    exact absurd h2 (Nat.not_le.mpr h1)
  | cons x t ih =>
    intro acc cur h1 h2
    rw [List.length_cons] at h2
    rw [List.foldl_cons, batchStep]
    dsimp only
    by_cases hflush : (cur ++ [x]).length = B
    · rw [List.length_append, List.length_singleton] at hflush
      rw [if_pos (by rw [List.length_append, List.length_singleton]; omega)]
      have hk : B - cur.length = 1 := by omega
      rw [hk, List.take_cons, List.take_zero, List.drop_one, List.tail_cons]
      exact Nat.one_pos
    · rw [List.length_append, List.length_singleton] at hflush
      rw [if_neg (by rw [List.length_append, List.length_singleton]; omega)]
      have hcur : (cur ++ [x]).length < B := by
        rw [List.length_append, List.length_singleton]
        omega
      have hle2 : B ≤ (cur ++ [x]).length + t.length := by
        rw [List.length_append, List.length_singleton]
        omega
      rw [ih acc (cur ++ [x]) hcur hle2]
      have hm : B - cur.length = (B - (cur ++ [x]).length) + 1 := by
        rw [List.length_append, List.length_singleton]
        omega
      rw [hm, List.take_succ_cons, List.drop_succ_cons]
      rw [List.length_append, List.length_singleton, List.append_assoc,
        List.singleton_append]

/-- The batches built by the batching loop, with the pending batch
appended when non-empty, form exactly the sequential chunk partition. -/
lemma batchFold_chunksOf (B : ℕ) (hB : 0 < B) :
    ∀ (n : ℕ) (l : List ℕ), l.length ≤ n → ∀ acc : List (List ℕ),
      (if 0 < (l.foldl (batchStep B) (acc, [])).2.length
       then (l.foldl (batchStep B) (acc, [])).1 ++
         [(l.foldl (batchStep B) (acc, [])).2]
       else (l.foldl (batchStep B) (acc, [])).1) = acc ++ chunksOf B l := by
  intro n
  induction n with
  | zero =>
    intro l hl acc
    have hnil : l = [] := List.length_eq_zero.mp (Nat.le_zero.mp hl)
    subst hnil
    simp [chunksOf_nil]
  | succ n ih =>
    intro l hl acc
    rcases eq_or_ne l [] with rfl | hne
    · simp [chunksOf_nil]
    · by_cases hlb : l.length < B
      · rw [batchFold_short B l acc [] (by simpa using hlb)]
        dsimp only
        rw [if_pos (by simpa using List.length_pos.mpr hne)]
        rw [chunksOf_cons B hB l hne,
          List.take_of_length_le (le_of_lt hlb),
          List.drop_eq_nil_of_le (le_of_lt hlb), chunksOf_nil]
        simp
      · push_neg at hlb
        rw [batchFold_flush B l acc [] (by simpa using hB) (by simpa using hlb)]
        simp only [List.nil_append, List.length_nil, Nat.sub_zero]
        have hlen : (l.drop B).length ≤ n := by
          rw [List.length_drop]
          omega
        rw [ih (l.drop B) hlen (acc ++ [l.take B]),
          chunksOf_cons B hB l hne]
        simp

/-- With `drop_last=False`, the batch collection built by `__iter__` is
exactly the sequential chunk partition of the index sequence. -/
lemma all_batches_false_eq_chunksOf (sampler : List ℕ) (B : ℕ) (hB : 0 < B) :
    all_batches sampler B false = chunksOf B sampler := by
  have haux := batchFold_chunksOf B hB sampler.length sampler le_rfl []
  rw [List.nil_append] at haux
  rw [all_batches, if_congr (Iff.intro (fun h => h.1) (fun h => ⟨h, rfl⟩))
    rfl rfl]
  exact haux

/-- Every flushed batch has length exactly `batch_size`. -/
lemma batchFold_full (B : ℕ) (l : List ℕ) :
    ∀ (acc : List (List ℕ)) (cur : List ℕ), (∀ b ∈ acc, b.length = B) →
      ∀ b ∈ (l.foldl (batchStep B) (acc, cur)).1, b.length = B := by
  induction l with
  | nil =>
    intro acc cur h
    simpa using h
  | cons x t ih =>
    intro acc cur h
    rw [List.foldl_cons, batchStep]
    dsimp only
    by_cases hf : (cur ++ [x]).length = B
    · rw [if_pos hf]
      apply ih
      intro b hb
      rcases List.mem_append.mp hb with hb | hb
      · exact h b hb
      · rw [List.mem_singleton.mp hb]
        exact hf
    · rw [if_neg hf]
      exact ih acc (cur ++ [x]) h

/-- With `drop_last=True`, the batch collection built by `__iter__` is
the sequential chunk partition with the final partial chunk discarded. -/
lemma all_batches_true_eq_filter (sampler : List ℕ) (B : ℕ) (hB : 0 < B) :
    all_batches sampler B true =
      (chunksOf B sampler).filter (fun c => c.length = B) := by
  have haux := batchFold_chunksOf B hB sampler.length sampler le_rfl []
  rw [List.nil_append] at haux
  rw [← haux, all_batches, if_neg (by simp)]
  obtain ⟨-, hlt⟩ :=
    batchFold_pending_length B hB sampler [] [] (by simpa using hB)
  have hfull := batchFold_full B sampler [] []
    (by intro b hb; exact absurd hb (List.not_mem_nil b))
  have hkeep : (sampler.foldl (batchStep B) ([], [])).1.filter
      (fun c => c.length = B) = (sampler.foldl (batchStep B) ([], [])).1 :=
    List.filter_eq_self.mpr (fun b hb => by simpa using hfull b hb)
  by_cases hp : 0 < (sampler.foldl (batchStep B) ([], [])).2.length
  · rw [if_pos hp, List.filter_append, hkeep]
    have hnot : ¬((sampler.foldl (batchStep B) ([], [])).2.length = B) := by
      omega
    simp [List.filter_cons, hnot]
  · rw [if_neg hp, hkeep]

/-- C3: for any batch size `B > 0` and any permutation `rand_index` drawn
at iteration time, one traversal of `RandomBatchSampler.__iter__` yields
batches whose multiset equals the sequential contiguous partition of the
index sequence into chunks of size `B`: with `drop_last=False` the final
shorter chunk is included and the flattened output is a permutation of
the whole index sequence (every index appears exactly once), and with
`drop_last=True` the final partial chunk is discarded and the flattened
output is a permutation of exactly the first `B * (N / B)` indices (the
last `N mod B` are dropped). -/
theorem sampler_iter_partition (sampler : List ℕ) (B : ℕ) (hB : 0 < B)
    (dl : Bool) (rand_index : List ℕ)
    (hperm : rand_index.Perm (List.range (all_batches sampler B dl).length)) :
    (dl = false →
      (sampler_iter sampler B dl rand_index).Perm (chunksOf B sampler) ∧
        (sampler_iter sampler B dl rand_index).flatten.Perm sampler) ∧
      (dl = true →
        (sampler_iter sampler B dl rand_index).Perm
            ((chunksOf B sampler).filter (fun c => c.length = B)) ∧
          (sampler_iter sampler B dl rand_index).flatten.Perm
            (sampler.take (B * (sampler.length / B)))) := by
  have hbatch : (sampler_iter sampler B dl rand_index).Perm
      (all_batches sampler B dl) := by
    have hmap := hperm.map (fun i => (all_batches sampler B dl).getD i [])
    rwa [map_getD_range] at hmap
  constructor
  · rintro rfl
    refine ⟨?_, ?_⟩
    · rw [← all_batches_false_eq_chunksOf sampler B hB]
      exact hbatch
    · have hfl := perm_flatten hbatch
      rwa [all_batches_flatten_false sampler B] at hfl
  · rintro rfl
    refine ⟨?_, ?_⟩
    · rw [← all_batches_true_eq_filter sampler B hB]
      exact hbatch
    · have hfl := perm_flatten hbatch
      rwa [all_batches_flatten_true sampler B hB] at hfl

/-- Witness for C3: sampler `[0,..,4]`, `B = 2`, `drop_last=False`, with a
concrete permutation of the batch positions. -/
theorem sampler_iter_partition_witness :
    ((false = false →
      (sampler_iter [0, 1, 2, 3, 4] 2 false [2, 0, 1]).Perm
          (chunksOf 2 [0, 1, 2, 3, 4]) ∧
        (sampler_iter [0, 1, 2, 3, 4] 2 false [2, 0, 1]).flatten.Perm
          [0, 1, 2, 3, 4]) ∧
      (false = true →
        (sampler_iter [0, 1, 2, 3, 4] 2 false [2, 0, 1]).Perm
            ((chunksOf 2 [0, 1, 2, 3, 4]).filter (fun c => c.length = 2)) ∧
          (sampler_iter [0, 1, 2, 3, 4] 2 false [2, 0, 1]).flatten.Perm
            ([0, 1, 2, 3, 4].take (2 * ([0, 1, 2, 3, 4].length / 2))))) :=
  sampler_iter_partition [0, 1, 2, 3, 4] 2 (by decide) false [2, 0, 1]
    (by decide)

end HexaLayout
